import Mathlib

/-!
Verification of the extraction/validation core of `txt-to-csv.py`
(converter-data-indi).

The Python source is shallowly embedded below.  Text is modelled as
`String` (Lean strings are lists of characters, matching Python `str`
for the ASCII/BMP data this tool processes); each Python helper becomes a
Lean function of the same name where possible, and the module-level entry
parsing loop becomes `processEntry` / `processBlocks`.  Printed warning
messages are modelled by the inductive type `Warning` (one constructor per
`print` site of the loop), and the `warnings_count` tally is carried
separately, because the source increments the tally at every warning site
except the too-many-lines one.
-/

set_option maxRecDepth 8000
set_option maxHeartbeats 1000000

namespace TxtToCsv

/-- Python whitespace for `str.strip()` and the regex class `\s`
(space, tab, CR, LF, vertical tab, form feed). -/
def pyIsWs (c : Char) : Bool :=
  c.isWhitespace || c = Char.ofNat 11 || c = Char.ofNat 12

/-- Python `str.strip()` on the underlying character list: drop leading
and trailing whitespace. -/
def pyStripL (l : List Char) : List Char :=
  ((l.dropWhile pyIsWs).reverse.dropWhile pyIsWs).reverse

/-- Python `str.strip()`. -/
def pyStrip (s : String) : String :=
  String.mk (pyStripL s.data)

/-- Python `str.lower()` (ASCII case folding, which is all this data needs). -/
def lowerStr (s : String) : String :=
  String.mk (s.data.map Char.toLower)

/-- The per-character action of one substitution step of `clean_text`. -/
def substC (pat rep c : Char) : Char :=
  if c = pat then rep else c

/-- One step `text.replace(pat, rep)` of `clean_text`, where every pattern
in the source table is a single character. -/
def subst1 (pat rep : Char) (s : String) : String :=
  String.mk (s.data.map (substC pat rep))

/-- `clean_text` (source lines 46-59): the nine artifact substitutions,
applied in source order. `Char.ofNat 0x92` etc. are the legacy single-byte
control codes written `\x92`... in the source; apostrophe and double quote
replacement characters are written by code point. -/
def clean_text (s : String) : String :=
  subst1 (Char.ofNat 0x97) '-'
    (subst1 (Char.ofNat 0x96) '-'
      (subst1 (Char.ofNat 0x94) (Char.ofNat 34)
        (subst1 (Char.ofNat 0x93) (Char.ofNat 34)
          (subst1 (Char.ofNat 0x92) (Char.ofNat 39)
            (subst1 '�' '-'
              (subst1 '–' '-'
                (subst1 '—' '-'
                  (subst1 'Ð' '-' s))))))))

theorem data_mk (l : List Char) : (String.mk l).data = l := rfl

/-- Sequential application of a table of single-character substitutions,
first table entry applied first, exactly as the reassignment sequence in
`clean_text` does. -/
def applyTable : List (Char × Char) → String → String
  | [], s => s
  | (p, r) :: rest, s => applyTable rest (subst1 p r s)

/-- The substitution table of `clean_text`, in source order. -/
def cleanTable : List (Char × Char) :=
  [('Ð', '-'), ('—', '-'), ('–', '-'), ('�', '-'),
   (Char.ofNat 0x92, Char.ofNat 39), (Char.ofNat 0x93, Char.ofNat 34),
   (Char.ofNat 0x94, Char.ofNat 34), (Char.ofNat 0x96, '-'),
   (Char.ofNat 0x97, '-')]

theorem clean_text_eq_applyTable (s : String) :
    clean_text s = applyTable cleanTable s := rfl

theorem subst1_id_of_no_pat (p r : Char) (s : String)
    (h : ∀ c ∈ s.data, c ≠ p) : subst1 p r s = s := by
  unfold subst1
  have : s.data.map (substC p r) = s.data := by
    have h2 : s.data.map (substC p r) = s.data.map id :=
      List.map_congr_left (fun c hc => by simp [substC, h c hc])
    rw [h2, List.map_id]
  rw [this]

theorem mem_subst1 (p r : Char) (s : String) (c : Char)
    (h : c ∈ (subst1 p r s).data) : c = r ∨ (c ∈ s.data ∧ c ≠ p) := by
  unfold subst1 at h
  rw [data_mk] at h
  rcases List.mem_map.mp h with ⟨a, ha, rfl⟩
  by_cases hp : a = p
  · left; simp [substC, hp]
  · right
    rw [show substC p r a = a from by simp [substC, hp]]
    exact ⟨ha, hp⟩

theorem applyTable_id (tbl : List (Char × Char)) (s : String)
    (h : ∀ pr ∈ tbl, ∀ c ∈ s.data, c ≠ pr.1) : applyTable tbl s = s := by
  induction tbl with
  | nil => rfl
  | cons pr rest ih =>
      obtain ⟨p, r⟩ := pr
      show applyTable rest (subst1 p r s) = s
      rw [subst1_id_of_no_pat p r s (h (p, r) (by simp))]
      exact ih (fun q hq => h q (by simp [hq]))

theorem mem_applyTable (tbl : List (Char × Char)) (s : String) (c : Char)
    (h : c ∈ (applyTable tbl s).data) :
    c ∈ tbl.map Prod.snd ∨ (c ∈ s.data ∧ ∀ pr ∈ tbl, c ≠ pr.1) := by
  induction tbl generalizing s with
  | nil => exact Or.inr ⟨h, by simp⟩
  | cons pr rest ih =>
      obtain ⟨p, r⟩ := pr
      rcases ih (subst1 p r s) h with hin | ⟨hmem, hne⟩
      · exact Or.inl (by simp [hin])
      · rcases mem_subst1 p r s c hmem with rfl | ⟨hs, hp⟩
        · exact Or.inl (by simp)
        · refine Or.inr ⟨hs, ?_⟩
          intro q hq
          rcases List.mem_cons.mp hq with rfl | hq2
          · exact hp
          · exact hne q hq2

/-- If no replacement character of a substitution table is also a pattern
character of the table, applying the table twice equals applying it once. -/
theorem applyTable_idem (tbl : List (Char × Char))
    (hdisj : ∀ r ∈ tbl.map Prod.snd, ∀ p ∈ tbl.map Prod.fst, r ≠ p)
    (s : String) : applyTable tbl (applyTable tbl s) = applyTable tbl s := by
  apply applyTable_id
  intro pr hpr c hc
  rcases mem_applyTable tbl s c hc with hrep | ⟨_, hsur⟩
  · exact hdisj c hrep pr.1 (List.mem_map.mpr ⟨pr, hpr, rfl⟩)
  · exact hsur pr hpr

/-- C9: the Text Normalizer is idempotent, and empty input returns empty
output.  (It is pure by construction: `clean_text` is a function of its
string argument alone; each substitution is a literal single-character
replacement, and no replacement character is itself a pattern of the
table, so the substitutions are non-overlapping.) -/
theorem c9_clean_text_idempotent :
    (∀ s : String, clean_text (clean_text s) = clean_text s) ∧
    clean_text "" = "" := by
  constructor
  · intro s
    rw [clean_text_eq_applyTable, clean_text_eq_applyTable]
    exact applyTable_idem cleanTable (by decide) s
  · rfl

/-! ## Entry Segmenter (source lines 171-180)

`raw_text.strip().split("\n\n")` followed, per entry, by
`[line.strip() for line in entry.split("\n") if line.strip()]`. -/

/-- Helper for the splitting functions: prepend a character to the first
piece of a split result. -/
def consHead (c : Char) : List (List Char) → List (List Char)
  | [] => [[c]]
  | p :: ps => (c :: p) :: ps

/-- Python `text.split("\n\n")`: split on each leftmost non-overlapping
occurrence of two consecutive line breaks. -/
def splitNN : List Char → List (List Char)
  | [] => [[]]
  | [c] => [[c]]
  | c1 :: c2 :: rest =>
      if c1 = '\n' ∧ c2 = '\n' then [] :: splitNN rest
      else consHead c1 (splitNN (c2 :: rest))

/-- Python `entry.split("\n")`. -/
def splitLines : List Char → List (List Char)
  | [] => [[]]
  | c :: rest =>
      if c = '\n' then [] :: splitLines rest
      else consHead c (splitLines rest)

/-- The per-entry line list of the parsing loop:
`[line.strip() for line in entry.split("\n") if line.strip()]`. -/
def entryLines (entry : List Char) : List String :=
  ((splitLines entry).map (fun l => pyStrip (String.mk l))).filter
    (fun l => l != "")

/-- The Entry Segmenter: `raw_text.strip().split("\n\n")`, with each entry
carried as its non-empty trimmed lines (the loop head computes exactly
these from each entry before doing anything else). -/
def segmentText (text : String) : List (List String) :=
  (splitNN (pyStripL text.data)).map entryLines

/-! ## Structured Field Extractor (source lines 179-247)

The parsing loop body.  Each `print` of a warning message becomes one
constructor of `Warning`; the `warnings_count` tally is modelled by a
separate natural number because the source increments it at every warning
site except the too-many-lines print (lines 182-185), which prints without
incrementing. -/

/-- One constructor per warning `print` site of the entry parsing loop,
in source order. -/
inductive Warning where
  | tooManyLines
  | tooFewLines
  | nimNotNumeric
  | nimBadLength
  | noEmail
  | multipleAt
  | noPhone
  | phoneHasLetters
  | noAddress
  | longLine
  deriving DecidableEq, Repr

/-- The record row `[nim, fullname, email, phone, address]` appended to
`parsed_data`, with the spec's field names. -/
structure Record where
  identifier : String
  fullName : String
  email : String
  phone : String
  address : String
  deriving DecidableEq, Repr

/-- Python `"@" in l`. -/
def hasAt (l : String) : Bool := l.data.contains '@'

/-- Python `l.lower().startswith("tel")`. -/
def isTelLine (l : String) : Bool :=
  List.isPrefixOf ['t', 'e', 'l'] (lowerStr l).data

/-- Python `nim.isdigit()`. -/
def pyIsDigit (s : String) : Bool :=
  !s.data.isEmpty && s.data.all Char.isDigit

/-- Python `phone.replace("Tel.", "")`: remove every leftmost
non-overlapping occurrence of the four-character token. -/
def removeTel : List Char → List Char
  | 'T' :: 'e' :: 'l' :: '.' :: rest => removeTel rest
  | c :: rest => c :: removeTel rest
  | [] => []

/-- Python `phone.replace("Tel.", "").strip()`. -/
def stripTel (l : String) : String := pyStrip (String.mk (removeTel l.data))

/-- The letters check on the cleaned phone value:
`any(c.isalpha() for c in cleaned.replace("-","").replace("/","").replace(" ",""))`. -/
def phoneHasAlpha (s : String) : Bool :=
  (s.data.filter (fun c => !(c = '-' || c = '/' || c = ' '))).any Char.isAlpha

/-- Python `" ".join(lines)`. -/
def joinSpace : List String → String
  | [] => ""
  | [s] => s
  | s :: rest => s ++ " " ++ joinSpace rest

/-- `lines[0]` (guarded by the length-4 check in the loop). -/
def fullnameOf (lines : List String) : String := lines.getD 0 ""

/-- `lines[1]`. -/
def nimOf (lines : List String) : String := lines.getD 1 ""

/-- `next((l for l in lines if "@" in l), "")`. -/
def emailOf (lines : List String) : String := (lines.find? hasAt).getD ""

/-- `next((l for l in lines if l.lower().startswith("tel")), "")`. -/
def phoneRawOf (lines : List String) : String :=
  (lines.find? isTelLine).getD ""

/-- The final phone value `phone.replace("Tel.", "").strip()`. -/
def phoneOf (lines : List String) : String := stripTel (phoneRawOf lines)

/-- `" ".join(l for l in lines[2:] if "@" not in l and not
l.lower().startswith("tel"))`. -/
def addressOf (lines : List String) : String :=
  joinSpace ((lines.drop 2).filter (fun l => !hasAt l && !isTelLine l))

/-- The structural too-many-lines warning (source lines 182-185): printed,
but `warnings_count` is NOT incremented there. -/
def structWarn (lines : List String) : List Warning :=
  if 7 < lines.length then [Warning.tooManyLines] else []

/-- All field warnings of the loop body for a block with at least 4
lines, in source print order.  Each element of this list corresponds to
exactly one `warnings_count += 1` in the source. -/
def fieldWarns (lines : List String) : List Warning :=
  (if pyIsDigit (nimOf lines) then [] else [Warning.nimNotNumeric])
  ++ (if (nimOf lines).length < 8 ∨ 15 < (nimOf lines).length then
        [Warning.nimBadLength] else [])
  ++ (if emailOf lines = "" then [Warning.noEmail]
      else if 1 < (emailOf lines).data.count '@' then [Warning.multipleAt]
      else [])
  ++ (if phoneRawOf lines = "" then [Warning.noPhone]
      else if phoneHasAlpha (stripTel (phoneRawOf lines)) then
        [Warning.phoneHasLetters]
      else [])
  ++ (if addressOf lines = "" then [Warning.noAddress] else [])
  ++ (if lines.any (fun l => 200 < l.length) then [Warning.longLine] else [])

/-- One pass of the entry parsing loop body on the non-empty trimmed lines
of one entry: the optional emitted record, the printed warnings in order,
and the contribution to `warnings_count`. -/
def processEntry (lines : List String) :
    Option Record × List Warning × Nat :=
  if lines.length < 4 then
    (none, structWarn lines ++ [Warning.tooFewLines], 1)
  else
    (some ⟨nimOf lines, fullnameOf lines, emailOf lines, phoneOf lines,
       addressOf lines⟩,
     structWarn lines ++ fieldWarns lines,
     (fieldWarns lines).length)

/-- The whole loop over all entries: records in emission order, printed
warnings, and the final `warnings_count`. -/
def processBlocks : List (List String) → List Record × List Warning × Nat
  | [] => ([], [], 0)
  | b :: bs =>
      let r := processEntry b
      let rest := processBlocks bs
      (r.1.toList ++ rest.1, r.2.1 ++ rest.2.1, r.2.2 + rest.2.2)

/-- Stage 1 on a cleaned text: segmentation followed by the parsing loop. -/
def processText (text : String) : List Record × List Warning × Nat :=
  processBlocks (segmentText text)

/-! ## Heuristic Name Scanner filter and deduplication
(source lines 62-109 and 126-132) -/

/-- The keyword list of `extract_fullnames_from_txt`. -/
def invalid_keywords : List String :=
  [".com", ".co.", ".id", "yahoo", "gmail", "hotmail", "email"]

/-- `\s*\d` after the current position: skip whitespace, then require a
digit. -/
def wsThenDigit : List Char → Bool
  | [] => false
  | c :: rest =>
      if c.isDigit then true
      else if pyIsWs c then wsThenDigit rest
      else false

/-- Python `re.search(r'[/\-]\s*\d', name)`: somewhere in the string, a
slash or dash followed by optional whitespace and a digit. -/
def slashDashDigit : List Char → Bool
  | [] => false
  | c :: rest => ((c = '/' || c = '-') && wsThenDigit rest) || slashDashDigit rest

/-- `name.endswith("Tel.")` (exact case, as in the dedup loop). -/
def endsTel (s : String) : Bool := List.isSuffixOf ['T', 'e', 'l', '.'] s.data

/-- `name.lower().endswith('tel.')` (as in the extraction filter). -/
def endsTelLower (s : String) : Bool :=
  List.isSuffixOf ['t', 'e', 'l', '.'] (lowerStr s).data

/-- Python substring containment `pat in s`. -/
def containsSub (pat : List Char) : List Char → Bool
  | [] => pat.isEmpty
  | c :: rest => List.isPrefixOf pat (c :: rest) || containsSub pat rest

/-- The candidate filter of `extract_fullnames_from_txt` (source lines
80-105): `true` iff the already-stripped match text survives every
`continue`. -/
def keepCandidate (name : String) : Bool :=
  !(name.data.contains '@')
  && !(lowerStr name = "tel" || lowerStr name = "tel." || endsTelLower name)
  && !(invalid_keywords.any (fun k => containsSub k.data (lowerStr name).data))
  && !(slashDashDigit name.data)
  && !(name.length < 3 || 3 ≤ name.data.count '.')
  && !(2 * name.data.countP Char.isAlpha < name.length)

/-- The deduplication loop of `validate_csv_against_txt` (source lines
126-132), with `seen` as the list of names added so far:
`if name not in seen or not name.endswith("Tel."): seen.add(name);
txt_fullnames_unique.append(name)`. -/
def dedupGo (seen : List String) : List String → List String
  | [] => []
  | n :: rest =>
      if !(seen.contains n) || !(endsTel n) then n :: dedupGo (n :: seen) rest
      else dedupGo seen rest

/-- The deduplicated candidate list `txt_fullnames_unique`. -/
def dedupNames (names : List String) : List String := dedupGo [] names

/-! ## Cross-Validator (source lines 112-159)

The CSV-reading side of `validate_csv_against_txt`, given the raw
candidate list and the CSV `Fullname` column (`none` models an unreadable
CSV, i.e. the `except` branch at lines 144-146). -/

/-- Cross-validation result: `(missing_names, total unique txt names,
total csv names)`, exactly the triple the source returns. -/
def validate_csv_against_txt (txt_fullnames : List String)
    (csv? : Option (List String)) : List String × Nat × Nat :=
  let uniq := dedupNames txt_fullnames
  match csv? with
  | none => ([], uniq.length, 0)
  | some rows =>
      let csvNames := rows.map pyStrip
      let lower := csvNames.map lowerStr
      (uniq.filter (fun n => !(lower.contains (lowerStr n))),
       uniq.length, csvNames.length)

/-! ## Helper lemmas about the extractor -/

theorem processEntry_few (lines : List String) (h : lines.length < 4) :
    processEntry lines = (none, structWarn lines ++ [Warning.tooFewLines], 1) := by
  unfold processEntry; rw [if_pos h]

theorem processEntry_some (lines : List String) (h : ¬ lines.length < 4) :
    processEntry lines =
      (some ⟨nimOf lines, fullnameOf lines, emailOf lines, phoneOf lines,
         addressOf lines⟩,
       structWarn lines ++ fieldWarns lines, (fieldWarns lines).length) := by
  unfold processEntry; rw [if_neg h]

theorem processEntry_none_iff (lines : List String) :
    (processEntry lines).1 = none ↔ lines.length < 4 := by
  by_cases h : lines.length < 4
  · rw [processEntry_few lines h]; simp [h]
  · rw [processEntry_some lines h]; simp [h]

theorem mem_ite_singleton {α : Type} (a b : α) (c : Prop) [Decidable c] :
    (a ∈ (if c then [b] else [])) ↔ c ∧ a = b := by
  split_ifs with h <;> simp [h]

theorem mem_ite_ite_singleton {α : Type} (a b1 b2 : α) (c1 c2 : Prop)
    [Decidable c1] [Decidable c2] :
    (a ∈ (if c1 then [b1] else if c2 then [b2] else [])) ↔
      (c1 ∧ a = b1) ∨ (¬ c1 ∧ c2 ∧ a = b2) := by
  split_ifs <;> simp [*]

theorem mem_structWarn (a : Warning) (lines : List String) :
    a ∈ structWarn lines ↔ 7 < lines.length ∧ a = Warning.tooManyLines := by
  unfold structWarn; exact mem_ite_singleton a Warning.tooManyLines _

/-! ## Claim theorems (first batch) -/

/-- C4: the well-formed block `["Jane Doe","12345678","Jl. Merdeka 1",
"jane@example.com","Tel. 021-555"]` yields exactly one record with
identifier "12345678", fullName "Jane Doe", email "jane@example.com",
phone "021-555", address "Jl. Merdeka 1", and zero warnings (printed or
tallied). -/
theorem c4_wellformed_block :
    processEntry
        ["Jane Doe", "12345678", "Jl. Merdeka 1", "jane@example.com",
         "Tel. 021-555"] =
      (some ⟨"12345678", "Jane Doe", "jane@example.com", "021-555",
         "Jl. Merdeka 1"⟩, [], 0) := by
  decide

theorem processBlocks_records_length (bs : List (List String)) :
    (processBlocks bs).1.length =
      (bs.filter (fun b => decide (4 ≤ b.length))).length := by
  induction bs with
  | nil => rfl
  | cons b rest ih =>
      show ((processEntry b).1.toList ++ (processBlocks rest).1).length = _
      by_cases h : b.length < 4
      · rw [processEntry_few b h]
        have : decide (4 ≤ b.length) = false := by simp; omega
        simp [List.filter_cons, this, ih]
      · rw [processEntry_some b h]
        have : decide (4 ≤ b.length) = true := by simp; omega
        simp [List.filter_cons, this, ih]

/-- C5: a block with fewer than 4 non-empty lines yields no record, a
too-few-lines warning, and a positive tally contribution; a block is
record-less only under that condition; and the loop continues over the
remaining blocks, so the run emits exactly one record per block with at
least 4 lines. -/
theorem c5_too_few_lines :
    (∀ lines : List String, lines.length < 4 →
        (processEntry lines).1 = none ∧
        Warning.tooFewLines ∈ (processEntry lines).2.1 ∧
        1 ≤ (processEntry lines).2.2) ∧
    (∀ lines : List String, (processEntry lines).1 = none →
        lines.length < 4) ∧
    (∀ text : String, (processText text).1.length =
        ((segmentText text).filter (fun b => decide (4 ≤ b.length))).length) := by
  refine ⟨fun lines h => ?_, fun lines h => ?_, fun text => ?_⟩
  · rw [processEntry_few lines h]; simp
  · exact (processEntry_none_iff lines).mp h
  · exact processBlocks_records_length (segmentText text)

theorem c5_too_few_lines_witness :
    (processEntry ["a"]).1 = none ∧
    Warning.tooFewLines ∈ (processEntry ["a"]).2.1 ∧
    1 ≤ (processEntry ["a"]).2.2 :=
  c5_too_few_lines.1 ["a"] (by decide)

/-- C8 (code-bug evidence): an 8-line otherwise clean block makes the loop
print the too-many-lines warning and still emit a record, but contributes
0 to `warnings_count` — the source prints at lines 182-185 without the
`warnings_count += 1` that every other warning site has, so the final
"Total warnings" tally excludes this anomaly. -/
theorem c8_too_many_lines_not_tallied :
    processEntry
        ["Jane Doe", "12345678", "A1", "A2", "A3", "A4",
         "jane@example.com", "Tel. 021-555"] =
      (some ⟨"12345678", "Jane Doe", "jane@example.com", "021-555",
         "A1 A2 A3 A4"⟩, [Warning.tooManyLines], 0) := by
  decide

/-- Modelled from the spec: the claim's "digit count" of the identifier,
i.e. the number of digit characters in the string. -/
def specDigitCount (s : String) : Nat := (s.data.filter Char.isDigit).length

/-- C7 counterexample: for the block with identifier "12AB5678" the
claim's condition holds (digit count 6 is outside [8,15]) yet the code
produces no length warning, because it tests `len(nim)` (8, inside the
range), not the digit count. -/
theorem c7_counterexample :
    specDigitCount "12AB5678" < 8 ∧
    Warning.nimBadLength ∉
      (processEntry ["Jane Doe", "12AB5678", "Jl. X", "j@x.com", "Tel. 1"]).2.1 ∧
    (processEntry ["Jane Doe", "12AB5678", "Jl. X", "j@x.com", "Tel. 1"]).1 =
      some ⟨"12AB5678", "Jane Doe", "j@x.com", "1", "Jl. X"⟩ := by
  decide

/-- C7 as amended: line 1 becomes the identifier verbatim and the record
is emitted even when malformed; a warning is produced exactly when the
identifier is not all-digit, and a separate warning exactly when its
character length (not its digit count) is outside [8,15]. -/
theorem c7_identifier_warnings (lines : List String)
    (h : 4 ≤ lines.length) :
    (processEntry lines).1.map Record.identifier = some (lines.getD 1 "") ∧
    (Warning.nimNotNumeric ∈ (processEntry lines).2.1 ↔
      pyIsDigit (lines.getD 1 "") = false) ∧
    (Warning.nimBadLength ∈ (processEntry lines).2.1 ↔
      ((lines.getD 1 "").length < 8 ∨ 15 < (lines.getD 1 "").length)) := by
  have h' : ¬ lines.length < 4 := by omega
  rw [processEntry_some lines h']
  refine ⟨rfl, ?_, ?_⟩ <;>
    simp only [List.mem_append, mem_structWarn, fieldWarns, nimOf,
      mem_ite_singleton, mem_ite_ite_singleton] <;>
    simp [Bool.not_eq_true]

theorem c7_identifier_warnings_witness :
    (processEntry ["Jane Doe", "12AB5678", "Jl. X", "j@x.com", "Tel. 1"]).1.map
        Record.identifier = some "12AB5678" ∧
    Warning.nimNotNumeric ∈
      (processEntry ["Jane Doe", "12AB5678", "Jl. X", "j@x.com", "Tel. 1"]).2.1 := by
  have h := c7_identifier_warnings
    ["Jane Doe", "12AB5678", "Jl. X", "j@x.com", "Tel. 1"] (by decide)
  exact ⟨h.1, h.2.1.mpr (by decide)⟩

/-- C2 counterexample: with candidate list `["Jane Doe"]` and an
unreadable CSV the code returns `missing_names = []`, not the whole
candidate list as the claim states (`totalRecorded = 0` does hold). -/
theorem c2_counterexample :
    (validate_csv_against_txt ["Jane Doe"] none).1 ≠
      dedupNames ["Jane Doe"] ∧
    (validate_csv_against_txt ["Jane Doe"] none).2.2 = 0 := by
  decide

/-- C2 as amended: when the CSV is missing or unreadable the validator
degrades without a fatal error to `totalRecorded = 0`, with
`missingNames = []` (no candidate reported as missing) and `totalScanned`
still the deduplicated candidate count. -/
theorem c2_missing_csv (cands : List String) :
    validate_csv_against_txt cands none =
      ([], (dedupNames cands).length, 0) := rfl

/-- Modelled from the spec: "with the literal prefix `"Tel."` stripped and
the remainder trimmed" — remove one leading occurrence of the token only,
then trim. -/
def specStripLeadingTel (s : String) : String :=
  if List.isPrefixOf ['T', 'e', 'l', '.'] s.data then
    pyStrip (String.mk (s.data.drop 4))
  else pyStrip s

/-- C6 counterexample: for the phone line "Tel. 0812Tel.99" the code's
`phone.replace("Tel.", "")` removes every occurrence of the token, giving
"081299", while stripping only the literal prefix would give
"0812Tel.99". -/
theorem c6_counterexample :
    (processEntry ["Jane Doe", "12345678", "Addr", "jane@example.com",
        "Tel. 0812Tel.99"]).1.map Record.phone = some "081299" ∧
    specStripLeadingTel "Tel. 0812Tel.99" = "0812Tel.99" ∧
    ("081299" : String) ≠ "0812Tel.99" := by
  decide

/-- C6 as amended: for a block with at least 4 lines, the phone field
equals the first line whose lowercase form starts with "tel", with every
occurrence of the literal token "Tel." removed and the result trimmed; a
no-phone warning is produced exactly when no such line exists. -/
theorem c6_phone_field (lines : List String) (h : 4 ≤ lines.length) :
    (∀ l, lines.find? isTelLine = some l →
        (processEntry lines).1.map Record.phone = some (stripTel l)) ∧
    (lines.find? isTelLine = none →
        Warning.noPhone ∈ (processEntry lines).2.1) := by
  have h' : ¬ lines.length < 4 := by omega
  rw [processEntry_some lines h']
  constructor
  · intro l hl
    simp [phoneOf, phoneRawOf, hl]
  · intro hn
    have hraw : phoneRawOf lines = "" := by simp [phoneRawOf, hn]
    simp [fieldWarns, hraw, mem_structWarn, mem_ite_singleton,
      mem_ite_ite_singleton]

theorem c6_phone_field_witness :
    (processEntry ["Jane Doe", "12345678", "Addr", "jane@example.com",
        "Tel. 021"]).1.map Record.phone = some "021" := by
  have h := (c6_phone_field
    ["Jane Doe", "12345678", "Addr", "jane@example.com", "Tel. 021"]
    (by decide)).1 "Tel. 021" (by decide)
  exact h.trans (by decide)

/-! ## C1: the scanner deduplication loop -/

theorem endsTelLower_of_endsTel (s : String) (h : endsTel s = true) :
    endsTelLower s = true := by
  unfold endsTel at h
  unfold endsTelLower
  rw [List.isSuffixOf_iff_suffix] at h ⊢
  have h2 := List.IsSuffix.map Char.toLower h
  have e : List.map Char.toLower ['T', 'e', 'l', '.'] = ['t', 'e', 'l', '.'] := by
    decide
  rw [e] at h2
  exact h2

theorem endsTel_eq_false_of_keep (n : String) (h : keepCandidate n = true) :
    endsTel n = false := by
  cases he : endsTel n with
  | false => rfl
  | true =>
      exfalso
      have hlow := endsTelLower_of_endsTel n he
      simp [keepCandidate, hlow] at h

theorem dedupGo_noTel (names : List String)
    (h : ∀ n ∈ names, endsTel n = false) :
    ∀ seen, dedupGo seen names = names := by
  induction names with
  | nil => intro seen; rfl
  | cons n rest ih =>
      intro seen
      have hn := h n (by simp)
      show (if !(seen.contains n) || !(endsTel n) then
          n :: dedupGo (n :: seen) rest
        else dedupGo seen rest) = n :: rest
      rw [hn]
      simp only [Bool.not_false, Bool.or_true, if_true]
      rw [ih (fun m hm => h m (by simp [hm])) (n :: seen)]

/-- C1 (code-bug evidence): the dedup loop of the Heuristic Name Scanner
never removes anything.  Its condition `name not in seen or not
name.endswith("Tel.")` appends every duplicate whose text does not end in
"Tel.", and the extraction filter has already discarded every candidate
ending in "Tel." (case-insensitively), so on every feasible candidate
list the loop is the identity — duplicates such as ["Jane Doe",
"Jane Doe"] are kept twice, contradicting both the claim and the
source's own comment "Remove duplicates while preserving order". -/
theorem c1_scanner_dedup_is_noop :
    (∀ names : List String, (∀ n ∈ names, keepCandidate n = true) →
        dedupNames names = names) ∧
    dedupNames ["Jane Doe", "Jane Doe"] = ["Jane Doe", "Jane Doe"] := by
  constructor
  · intro names h
    exact dedupGo_noTel names
      (fun n hn => endsTel_eq_false_of_keep n (h n hn)) []
  · decide

theorem c1_scanner_dedup_is_noop_witness :
    dedupNames ["Jane Doe", "Jane Doe"] = ["Jane Doe", "Jane Doe"] ∧
    keepCandidate "Jane Doe" = true :=
  ⟨c1_scanner_dedup_is_noop.1 ["Jane Doe", "Jane Doe"] (by decide), by decide⟩

/-! ## C10: emitted records have non-empty name and identifier -/

theorem processBlocks_mem_record (bs : List (List String)) (r : Record)
    (h : r ∈ (processBlocks bs).1) :
    ∃ b ∈ bs, (processEntry b).1 = some r := by
  induction bs with
  | nil => simp [processBlocks] at h
  | cons b rest ih =>
      simp only [processBlocks] at h
      rcases List.mem_append.mp h with h1 | h2
      · refine ⟨b, by simp, ?_⟩
        cases hb : (processEntry b).1 with
        | none => rw [hb] at h1; simp at h1
        | some r2 =>
            rw [hb] at h1
            simp at h1
            rw [h1]
      · obtain ⟨b2, hb2, he⟩ := ih h2
        exact ⟨b2, by simp [hb2], he⟩

theorem entryLines_mem_ne (e : List Char) (l : String)
    (h : l ∈ entryLines e) : l ≠ "" := by
  unfold entryLines at h
  have := List.of_mem_filter h
  simpa using this

theorem getD_mem_of_lt {l : List String} {i : Nat} (h : i < l.length) :
    l.getD i "" ∈ l := by
  rw [List.getD_eq_getElem l "" h]
  exact List.getElem_mem h

theorem processEntry_record_fields (lines : List String) (r : Record)
    (h : (processEntry lines).1 = some r) :
    4 ≤ lines.length ∧ r.fullName = lines.getD 0 "" ∧
      r.identifier = lines.getD 1 "" := by
  by_cases hl : lines.length < 4
  · rw [processEntry_few lines hl] at h; simp at h
  · rw [processEntry_some lines hl] at h
    simp only [Option.some.injEq] at h
    refine ⟨by omega, ?_, ?_⟩ <;> rw [← h] <;> rfl

/-- C10: every record the run emits has a non-empty fullName and a
non-empty identifier, because blocks carry only non-empty trimmed lines
and emission requires at least 4 of them, so lines 0 and 1 exist and are
non-empty. -/
theorem c10_emitted_records_nonempty_fields (text : String) (r : Record)
    (h : r ∈ (processText text).1) :
    r.fullName ≠ "" ∧ r.identifier ≠ "" := by
  obtain ⟨b, hb, he⟩ := processBlocks_mem_record (segmentText text) r h
  obtain ⟨hlen, hfn, hid⟩ := processEntry_record_fields b r he
  obtain ⟨e, _, rfl⟩ := List.mem_map.mp hb
  constructor
  · rw [hfn]
    exact entryLines_mem_ne e _ (getD_mem_of_lt (by omega))
  · rw [hid]
    exact entryLines_mem_ne e _ (getD_mem_of_lt (by omega))

theorem c10_emitted_records_nonempty_fields_witness :
    (⟨"12345678", "Jane Doe", "j@x.com", "", "Addr"⟩ : Record).fullName ≠ "" ∧
    (⟨"12345678", "Jane Doe", "j@x.com", "", "Addr"⟩ : Record).identifier ≠ "" :=
  c10_emitted_records_nonempty_fields "Jane Doe\n12345678\nAddr\nj@x.com" _
    (by decide)

/-! ## C3: the Entry Segmenter -/

/-- No two consecutive line breaks anywhere in the list. -/
def noNN : List Char → Bool
  | [] => true
  | [_] => true
  | c1 :: c2 :: rest => !(c1 = '\n' && c2 = '\n') && noNN (c2 :: rest)

/-- A well-separated non-empty block: non-empty, not starting or ending
in whitespace, containing no blank line (no two consecutive line breaks,
and not ending in a line break), and having at least one non-empty
trimmed line. -/
def goodBlock (b : List Char) : Bool :=
  !b.isEmpty &&
  (match b.head? with
   | some c => !pyIsWs c
   | none => false) &&
  (match b.reverse.head? with
   | some c => !pyIsWs c
   | none => false) &&
  noNN (b ++ ['\n']) &&
  !(entryLines b).isEmpty

/-- Blocks joined by blank-line separators: a head block followed by a
chain of (separator, block) pairs, where the separator is a run of two
line breaks when the flag is `false` and of three line breaks when it is
`true`. -/
def joinChain (b : List Char) : List (Bool × List Char) → List Char
  | [] => b
  | (s, b2) :: rest =>
      b ++ '\n' :: '\n' ::
        (if s then '\n' :: joinChain b2 rest else joinChain b2 rest)

theorem consHead_ne_nil (c : Char) (ps : List (List Char)) :
    consHead c ps ≠ [] := by
  cases ps <;> simp [consHead]

theorem noNN_append_left (l1 l2 : List Char) (h : noNN (l1 ++ l2) = true) :
    noNN l1 = true := by
  induction l1 with
  | nil => rfl
  | cons c rest ih =>
      cases rest with
      | nil => rfl
      | cons d rest2 =>
          rw [List.cons_append, List.cons_append] at h
          simp only [noNN, Bool.and_eq_true] at h ⊢
          refine ⟨h.1, ih ?_⟩
          rw [List.cons_append]
          exact h.2

theorem splitNN_no_sep (l : List Char) (h : noNN l = true) :
    splitNN l = [l] := by
  induction l with
  | nil => rfl
  | cons c rest ih =>
      cases rest with
      | nil => rfl
      | cons d rest2 =>
          simp only [noNN, Bool.and_eq_true, Bool.not_eq_true',
            Bool.and_eq_false_iff, decide_eq_false_iff_not] at h
          simp only [splitNN]
          rw [if_neg (by rcases h.1 with h1 | h1 <;> simp [h1]),
            ih h.2]
          rfl

theorem splitNN_append_sep (b rest : List Char)
    (h : noNN (b ++ ['\n']) = true) :
    splitNN (b ++ '\n' :: '\n' :: rest) = b :: splitNN rest := by
  induction b with
  | nil => simp [splitNN]
  | cons c b' ih =>
      cases b' with
      | nil =>
          have hc : ¬ (c = '\n') := by
            intro hceq
            subst hceq
            simp [noNN] at h
          show splitNN (c :: '\n' :: '\n' :: rest) = [c] :: splitNN rest
          simp only [splitNN]
          rw [if_neg (by simp [hc])]
          simp [consHead]
      | cons d b'' =>
          have hparts : ¬ (c = '\n' ∧ d = '\n') ∧
              noNN ((d :: b'') ++ ['\n']) = true := by
            rw [List.cons_append] at h
            simp only [noNN, Bool.and_eq_true, Bool.not_eq_true',
              Bool.and_eq_false_iff, decide_eq_false_iff_not,
              List.cons_append] at h
            constructor
            · rcases h.1 with h1 | h1 <;> simp [h1]
            · rw [List.cons_append]
              exact h.2
          show splitNN (c :: d :: (b'' ++ '\n' :: '\n' :: rest)) =
            (c :: d :: b'') :: splitNN rest
          simp only [splitNN]
          rw [if_neg hparts.1]
          have hih := ih hparts.2
          rw [List.cons_append] at hih
          rw [hih]
          rfl

theorem joinChain_cons (b : List Char) (s : Bool) (b2 : List Char)
    (rest : List (Bool × List Char)) :
    joinChain b ((s, b2) :: rest) =
      b ++ '\n' :: '\n' ::
        (if s then '\n' :: joinChain b2 rest else joinChain b2 rest) := rfl

theorem joinChain_ne_nil (b : List Char) (chain : List (Bool × List Char))
    (hb : b ≠ []) : joinChain b chain ≠ [] := by
  cases chain with
  | nil => exact hb
  | cons p rest =>
      obtain ⟨s, b2⟩ := p
      rw [joinChain_cons]
      cases b with
      | nil => exact absurd rfl hb
      | cons c t => simp

theorem head?_append_left (l1 l2 : List Char) (h : l1 ≠ []) :
    (l1 ++ l2).head? = l1.head? := by
  cases l1 with
  | nil => exact absurd rfl h
  | cons c t => rfl

theorem joinChain_head? (b : List Char) (chain : List (Bool × List Char))
    (hb : b ≠ []) : (joinChain b chain).head? = b.head? := by
  cases chain with
  | nil => rfl
  | cons p rest =>
      obtain ⟨s, b2⟩ := p
      rw [joinChain_cons]
      exact head?_append_left b _ hb

theorem splitNN_ne_nil (l : List Char) : splitNN l ≠ [] := by
  match l with
  | [] => simp [splitNN]
  | [c] => simp [splitNN]
  | c1 :: c2 :: rest =>
      simp only [splitNN]
      split
      · simp
      · exact consHead_ne_nil _ _

theorem entryLines_cons_newline (e : List Char) :
    entryLines ('\n' :: e) = entryLines e := by
  unfold entryLines
  rw [show splitLines ('\n' :: e) = [] :: splitLines e from by
    simp [splitLines]]
  have h0 : pyStrip (String.mk []) = "" := rfl
  simp [List.map_cons, List.filter_cons, h0]

theorem splitNN_cons_newline (J : List Char)
    (h : ∀ c, J.head? = some c → pyIsWs c = false) (hne : J ≠ []) :
    splitNN ('\n' :: J) = consHead '\n' (splitNN J) := by
  cases J with
  | nil => exact absurd rfl hne
  | cons c J2 =>
      have hcne : ¬ (c = '\n') := by
        intro he
        subst he
        exact absurd (h '\n' rfl) (by decide)
      simp only [splitNN]
      rw [if_neg (by simp [hcne])]

theorem map_entryLines_consHead (P : List (List Char)) (hP : P ≠ []) :
    (consHead '\n' P).map entryLines = P.map entryLines := by
  cases P with
  | nil => exact absurd rfl hP
  | cons p ps => simp [consHead, entryLines_cons_newline]

theorem goodBlock_spec (b : List Char) (h : goodBlock b = true) :
    b ≠ [] ∧
    (∀ c, b.head? = some c → pyIsWs c = false) ∧
    (∀ c, b.reverse.head? = some c → pyIsWs c = false) ∧
    noNN (b ++ ['\n']) = true ∧
    entryLines b ≠ [] := by
  unfold goodBlock at h
  simp only [Bool.and_eq_true] at h
  refine ⟨by simpa using h.1.1.1.1, ?_, ?_, h.1.2, by simpa using h.2⟩
  · intro c hc
    have h2 := h.1.1.1.2
    rw [hc] at h2
    simpa using h2
  · intro c hc
    have h3 := h.1.1.2
    rw [hc] at h3
    simpa using h3

theorem dropWhile_eq_self_of_head (l : List Char)
    (h : ∀ c, l.head? = some c → pyIsWs c = false) :
    l.dropWhile pyIsWs = l := by
  cases l with
  | nil => rfl
  | cons c t =>
      rw [List.dropWhile_cons, h c rfl]
      simp

theorem pyStripL_eq_self (l : List Char)
    (h1 : ∀ c, l.head? = some c → pyIsWs c = false)
    (h2 : ∀ c, l.reverse.head? = some c → pyIsWs c = false) :
    pyStripL l = l := by
  unfold pyStripL
  rw [dropWhile_eq_self_of_head l h1, dropWhile_eq_self_of_head l.reverse h2,
    List.reverse_reverse]

theorem joinChain_rev_head_nonws (chain : List (Bool × List Char)) :
    ∀ b, goodBlock b = true → (∀ p ∈ chain, goodBlock p.2 = true) →
    ∀ c, (joinChain b chain).reverse.head? = some c → pyIsWs c = false := by
  induction chain with
  | nil =>
      intro b hb _ c hc
      exact (goodBlock_spec b hb).2.2.1 c hc
  | cons p rest ih =>
      obtain ⟨s, b2⟩ := p
      intro b hb hc c hcc
      have hb2 : goodBlock b2 = true := hc (s, b2) (by simp)
      have hrest : ∀ q ∈ rest, goodBlock q.2 = true :=
        fun q hq => hc q (by simp [hq])
      have hJne : joinChain b2 rest ≠ [] :=
        joinChain_ne_nil b2 rest (goodBlock_spec b2 hb2).1
      rw [joinChain_cons] at hcc
      cases s with
      | false =>
          rw [if_neg (by simp), List.reverse_append,
            show ('\n' :: '\n' :: joinChain b2 rest).reverse =
              (joinChain b2 rest).reverse ++ ['\n', '\n'] from by simp,
            List.append_assoc,
            head?_append_left _ _ (by simpa using hJne)] at hcc
          exact ih b2 hb2 hrest c hcc
      | true =>
          rw [if_pos rfl, List.reverse_append,
            show ('\n' :: '\n' :: '\n' :: joinChain b2 rest).reverse =
              (joinChain b2 rest).reverse ++ ['\n', '\n', '\n'] from by simp,
            List.append_assoc,
            head?_append_left _ _ (by simpa using hJne)] at hcc
          exact ih b2 hb2 hrest c hcc

theorem splitChain_map (chain : List (Bool × List Char)) :
    ∀ b, goodBlock b = true → (∀ p ∈ chain, goodBlock p.2 = true) →
    (splitNN (joinChain b chain)).map entryLines =
      (b :: chain.map Prod.snd).map entryLines := by
  induction chain with
  | nil =>
      intro b hb _
      show (splitNN b).map entryLines = _
      rw [splitNN_no_sep b
        (noNN_append_left b ['\n'] (goodBlock_spec b hb).2.2.2.1)]
      rfl
  | cons p rest ih =>
      obtain ⟨s, b2⟩ := p
      intro b hb hc
      have hb2 : goodBlock b2 = true := hc (s, b2) (by simp)
      have hrest : ∀ q ∈ rest, goodBlock q.2 = true :=
        fun q hq => hc q (by simp [hq])
      have hJne : joinChain b2 rest ≠ [] :=
        joinChain_ne_nil b2 rest (goodBlock_spec b2 hb2).1
      have hJhead : ∀ c, (joinChain b2 rest).head? = some c →
          pyIsWs c = false := by
        intro c hcc
        rw [joinChain_head? b2 rest (goodBlock_spec b2 hb2).1] at hcc
        exact (goodBlock_spec b2 hb2).2.1 c hcc
      rw [joinChain_cons]
      cases s with
      | false =>
          rw [if_neg (by simp),
            splitNN_append_sep b _ (goodBlock_spec b hb).2.2.2.1,
            List.map_cons, ih b2 hb2 hrest]
          rfl
      | true =>
          rw [if_pos rfl,
            splitNN_append_sep b _ (goodBlock_spec b hb).2.2.2.1,
            List.map_cons,
            splitNN_cons_newline (joinChain b2 rest) hJhead hJne,
            map_entryLines_consHead _ (splitNN_ne_nil _),
            ih b2 hb2 hrest]
          rfl

/-- C3 counterexample: for the text "a\n\n\n\nb" (two non-empty blocks
separated by a run of four line breaks) the segmenter produces THREE
blocks, one of which has zero non-empty lines — `split("\n\n")` splits on
exactly two line breaks, not on any longer run, and empty splits are not
suppressed. -/
theorem c3_counterexample :
    segmentText "a\n\n\n\nb" = [["a"], [], ["b"]] ∧
    [] ∈ segmentText "a\n\n\n\nb" ∧
    (segmentText "a\n\n\n\nb").length = 3 := by
  decide

/-- C3 as amended: the segmenter splits the stripped text on each
leftmost occurrence of exactly two consecutive line breaks, trims each
block's lines and drops empty ones; when every blank-line separator is a
run of exactly two or exactly three line breaks — chosen independently
per separator via the chain's flags — (and no block starts/ends with
whitespace or contains a blank line) it yields exactly N blocks, in
input order, each with at least one non-empty line.  (Runs of four or
more line breaks additionally yield empty blocks, per the
counterexample.) -/
theorem c3_segmenter (b : List Char) (chain : List (Bool × List Char))
    (hb : goodBlock b = true) (hc : ∀ p ∈ chain, goodBlock p.2 = true) :
    segmentText (String.mk (joinChain b chain)) =
      (b :: chain.map Prod.snd).map entryLines ∧
    (segmentText (String.mk (joinChain b chain))).length =
      chain.length + 1 ∧
    ∀ e ∈ segmentText (String.mk (joinChain b chain)), e ≠ [] := by
  have hstrip : pyStripL (joinChain b chain) = joinChain b chain := by
    apply pyStripL_eq_self
    · intro c hcc
      rw [joinChain_head? b chain (goodBlock_spec b hb).1] at hcc
      exact (goodBlock_spec b hb).2.1 c hcc
    · exact joinChain_rev_head_nonws chain b hb hc
  have hmain : segmentText (String.mk (joinChain b chain)) =
      (b :: chain.map Prod.snd).map entryLines := by
    unfold segmentText
    rw [data_mk, hstrip]
    exact splitChain_map chain b hb hc
  refine ⟨hmain, by rw [hmain]; simp, ?_⟩
  intro e he
  rw [hmain] at he
  obtain ⟨x, hx, rfl⟩ := List.mem_map.mp he
  rcases List.mem_cons.mp hx with rfl | hx2
  · exact (goodBlock_spec x hb).2.2.2.2
  · obtain ⟨q, hq, rfl⟩ := List.mem_map.mp hx2
    exact (goodBlock_spec q.2 (hc q hq)).2.2.2.2

theorem c3_segmenter_witness :
    segmentText (String.mk (joinChain ['a'] [(true, ['b']), (false, ['c'])])) =
      [["a"], ["b"], ["c"]] := by
  have h := (c3_segmenter ['a'] [(true, ['b']), (false, ['c'])]
    (by decide) (by decide)).1
  exact h.trans (by decide)

end TxtToCsv
